import Mathlib

/-!
Verification of the perihelion / radial-profile analysis script
`los/main/plotting/peri/n_plot.py`.

The script's numeric state (numpy float arrays) is modelled with exact
rationals `ℚ` for the table-driven arithmetic and with `ℝ` wherever the
source applies transcendental functions (`np.sqrt`, `np.arccos`,
`np.arctan2`, `np.pi`, `**0.333`).  Python lists/arrays become `List`,
in-place element assignment becomes `List.set`, and fallible indexing
becomes `Option`.
-/

namespace NPlot

/-- Simulation box side length: the selected configuration constant `L = 250`. -/
def L : ℚ := 250

/-- Subhalo-count qualification threshold `SUBHALO_LIM = 40`. -/
def SUBHALO_LIM : ℕ := 40

/-- Radius-rescaling multiplier for the splashback radius (`r_sp_scale = 1.0`). -/
def r_sp_scale : ℚ := 1

/-- Radius-rescaling multiplier for the outer shell radius (`r_max_scale = 1.0`). -/
def r_max_scale : ℚ := 1

/-- Radius-rescaling multiplier for R200m (`r200m_scale = 1.0`). -/
def r200m_scale : ℚ := 1

/-- Radius-rescaling multiplier for R200c (`r200c_scale = 1.0`). -/
def r200c_scale : ℚ := 1

/-- The periodic wrap applied by `Halo.displace` to one freshly computed
coordinate difference: two sequential conditional corrections, the second
reading the value updated by the first, exactly as in the source
(`if d > L/2: d -= L` followed by `if d < -L/2: d += L`). -/
def wrap (d : ℚ) : ℚ :=
  let d1 := if d > L / 2 then d - L else d
  if d1 < -(L / 2) then d1 + L else d1

/-- Python index arithmetic for `a[-i]` on a list of length `n`:
`-0` denotes the FIRST element (index `0`), while `-i` for `i ≥ 1`
denotes the element at `n - i`. -/
def pyNegIdx (n i : ℕ) : ℕ := if i = 0 then 0 else n - i

/-- One iteration of the displacement loop body of `Halo.displace` for a single
coordinate axis: `self.xs[-i] -= host.xs[-i]` followed by the two wrap
conditionals, i.e. the element at Python index `-i` becomes
`wrap (sub[-i] - host[-i])`. -/
def displaceStep (host : List ℚ) (sub : List ℚ) (i : ℕ) : List ℚ :=
  let j := pyNegIdx sub.length i
  let k := pyNegIdx host.length i
  sub.set j (wrap (sub.getD j 0 - host.getD k 0))

/-- The coordinate part of `Halo.displace` for one axis: the loop
`for i in xrange(min(len(self.xs), len(host.xs)))` applying `displaceStep`
for `i = 0, 1, ..., m-1` to the subhalo's coordinate list in place. -/
def displaceCoords (sub host : List ℚ) : List ℚ :=
  (List.range (min sub.length host.length)).foldl (displaceStep host) sub

/-- Modelled from the spec: the displacement described by the specification
text, which pairs the k-th most recent subhalo sample with the k-th most
recent host sample for `k = 1..m` (`m` the shorter history length) and leaves
every earlier subhalo sample unchanged.  Used only to compare the source's
`displaceCoords` against the spec's words. -/
def displaceCoordsSpec (sub host : List ℚ) : List ℚ :=
  (List.range sub.length).map fun j =>
    if sub.length - min sub.length host.length ≤ j then
      wrap (sub.getD j 0 - host.getD (host.length - (sub.length - j)) 0)
    else sub.getD j 0

/-- C1: the claim says the displacement step pairs the k-th most recent subhalo
sample with the k-th most recent host sample for `k = 1..m` and leaves every
earlier subhalo sample unchanged.  The code's loop starts at `i = 0` and
indexes `xs[-i]`, and `xs[-0]` is the FIRST element, so for a subhalo history
`[10, 20, 30]` and host history `[5, 7]` the code produces `[5, 20, 23]`
(earliest samples paired head-aligned, second-most-recent pair skipped) while
the claimed trailing alignment yields `[10, 15, 23]`. -/
theorem c1_displace_head_aligned_bug :
    displaceCoords [10, 20, 30] [5, 7] = [5, 20, 23] ∧
    displaceCoordsSpec [10, 20, 30] [5, 7] = [10, 15, 23] ∧
    displaceCoords [10, 20, 30] [5, 7] ≠ displaceCoordsSpec [10, 20, 30] [5, 7] := by
  have h1 : displaceCoords [10, 20, 30] [5, 7] = [5, 20, 23] := by
    norm_num [displaceCoords, displaceStep, pyNegIdx, wrap, L, List.range_succ]
  have h2 : displaceCoordsSpec [10, 20, 30] [5, 7] = [10, 15, 23] := by
    norm_num [displaceCoordsSpec, wrap, L, List.range_succ]
  refine ⟨h1, h2, ?_⟩
  rw [h1, h2]
  simp

theorem wrap_mem {d : ℚ} (h1 : -(3 * L / 2) < d) (h2 : d < L) :
    -(L / 2) ≤ wrap d ∧ wrap d ≤ L / 2 := by
  simp only [wrap, L] at h1 h2 ⊢
  split_ifs with hA hB hC <;> constructor <;> linarith

theorem getD_bounds_of_mem {l : List ℚ} (h : ∀ x ∈ l, 0 ≤ x ∧ x < L) (j : ℕ) :
    0 ≤ l.getD j 0 ∧ l.getD j 0 < L := by
  by_cases hj : j < l.length
  · have he : l.getD j 0 = l.get ⟨j, hj⟩ := by
      simp [List.getD_eq_getElem?_getD, List.getElem?_eq_getElem hj]
    rw [he]
    exact h _ (l.get_mem _ _)
  · rw [List.getD_eq_default _ _ (le_of_not_lt hj)]
    refine ⟨le_refl 0, by norm_num [L]⟩

/-- The invariant carried through the displacement loop: every entry of the
partially displaced list either still holds its original value from `sub` or
lies in the wrapped interval `[-L/2, L/2]`. -/
def DispInv (sub acc : List ℚ) : Prop :=
  ∀ j : ℕ, acc.getD j 0 = sub.getD j 0 ∨
    (-(L / 2) ≤ acc.getD j 0 ∧ acc.getD j 0 ≤ L / 2)

theorem getD_set_cases (l : List ℚ) (j k : ℕ) (v : ℚ) :
    (l.set j v).getD k 0 = l.getD k 0 ∨
      ((l.set j v).getD k 0 = v ∧ k = j ∧ j < l.length) := by
  by_cases hk : k = j
  · subst hk
    by_cases hlen : k < l.length
    · right
      refine ⟨?_, rfl, hlen⟩
      have hlen2 : k < (l.set k v).length := by simpa using hlen
      simp [List.getD_eq_getElem?_getD, List.getElem?_eq_getElem hlen2,
        List.getElem_set_self]
    · left
      rw [List.set_eq_of_length_le (le_of_not_lt hlen)]
  · left
    simp [List.getD_eq_getElem?_getD, List.getElem?_set_ne (fun h => hk h.symm)]

theorem dispInv_step (sub host acc : List ℚ)
    (hs : ∀ x ∈ sub, 0 ≤ x ∧ x < L) (hh : ∀ x ∈ host, 0 ≤ x ∧ x < L)
    (hacc : DispInv sub acc) (i : ℕ) : DispInv sub (displaceStep host acc i) := by
  intro j
  simp only [displaceStep]
  rcases getD_set_cases acc (pyNegIdx acc.length i) j
      (wrap (acc.getD (pyNegIdx acc.length i) 0 -
        host.getD (pyNegIdx host.length i) 0)) with hcase | ⟨hval, _, _⟩
  · rw [hcase]; exact hacc j
  · rw [hval]
    right
    have hb := getD_bounds_of_mem hh (pyNegIdx host.length i)
    rcases hacc (pyNegIdx acc.length i) with horig | hrange
    · have ha := getD_bounds_of_mem hs (pyNegIdx acc.length i)
      rw [horig] at *
      refine wrap_mem ?_ ?_
      · have : (0:ℚ) < L := by norm_num [L]
        nlinarith [ha.1, ha.2, hb.1, hb.2]
      · nlinarith [ha.1, ha.2, hb.1, hb.2]
    · refine wrap_mem ?_ ?_
      · nlinarith [hrange.1, hrange.2, hb.1, hb.2]
      · have : (0:ℚ) < L := by norm_num [L]
        nlinarith [hrange.1, hrange.2, hb.1, hb.2]

theorem dispInv_foldl (sub host : List ℚ)
    (hs : ∀ x ∈ sub, 0 ≤ x ∧ x < L) (hh : ∀ x ∈ host, 0 ≤ x ∧ x < L)
    (is : List ℕ) (acc : List ℚ) (hacc : DispInv sub acc) :
    DispInv sub (is.foldl (displaceStep host) acc) := by
  induction is generalizing acc with
  | nil => exact hacc
  | cons i rest ih =>
    exact ih _ (dispInv_step sub host acc hs hh hacc i)

/-- C3: for raw subhalo and host coordinates all in `[0, L)`, every entry of
the displaced coordinate list is either an untouched original sample or a
periodic-wrapped coordinate difference lying in the closed interval
`[-L/2, L/2]`; in particular every difference produced by the wrap is in
`[-L/2, L/2]`. -/
theorem c3_wrap_invariant (sub host : List ℚ)
    (hs : ∀ x ∈ sub, 0 ≤ x ∧ x < L) (hh : ∀ x ∈ host, 0 ≤ x ∧ x < L) (j : ℕ) :
    (displaceCoords sub host).getD j 0 = sub.getD j 0 ∨
      (-(L / 2) ≤ (displaceCoords sub host).getD j 0 ∧
        (displaceCoords sub host).getD j 0 ≤ L / 2) := by
  exact dispInv_foldl sub host hs hh _ sub (fun j => Or.inl rfl) j

/-- Witness for C3 at the concrete input `sub = [200, 10]`, `host = [5, 240]`:
the hypotheses hold and the conclusion is obtained by applying the theorem. -/
theorem c3_wrap_invariant_witness :
    (∀ x ∈ ([200, 10] : List ℚ), 0 ≤ x ∧ x < L) ∧
    ((displaceCoords [200, 10] [5, 240]).getD 0 0 = ([200, 10] : List ℚ).getD 0 0 ∨
      (-(L / 2) ≤ (displaceCoords [200, 10] [5, 240]).getD 0 0 ∧
        (displaceCoords [200, 10] [5, 240]).getD 0 0 ≤ L / 2)) :=
  ⟨by norm_num [L], c3_wrap_invariant [200, 10] [5, 240]
    (by norm_num [L]) (by norm_num [L]) 0⟩

/-- The tolerance comparison `eps_eq(x, y)` of the aggregation stage:
`np.abs(x - y) < eps` with `eps = 0.01`. -/
def eps_eq (x y : ℚ) : Bool := decide (|x - y| < 0.01)

/-- The per-subhalo aggregation mask
`(~eps_eq(xps, xs)) & (xps < 1) & (ds > 0)`, evaluated pointwise:
`xp` is the perihelion normalized distance, `x` the present-day normalized
distance, `d` the present-day distance. -/
def subMask (xp x d : ℚ) : Bool := (!eps_eq xp x) && decide (xp < 1) && decide (d > 0)

/-- C4: a subhalo passes the aggregation mask if and only if its perihelion
normalized distance satisfies `xp < 1`, its present-day distance satisfies
`d > 0`, and `|xp - x| ≥ 0.01` where `x = d / r` is the present-day distance
divided by the host's present-day radius. -/
theorem c4_mask_iff (xp d r : ℚ) :
    subMask xp (d / r) d = true ↔
      (xp < 1 ∧ d > 0 ∧ |xp - d / r| ≥ 0.01) := by
  simp only [subMask, eps_eq, Bool.and_eq_true, Bool.not_eq_true', decide_eq_true_eq,
    decide_eq_false_iff_not, not_lt, ge_iff_le]
  tauto

/-- The recursion step used by `argminIdx`: given the argmin of the tail
`xs`, the argmin of `x :: xs` is the tail's argmin shifted by one when the
tail's minimum is strictly smaller than `x`, and `0` otherwise (so the FIRST
occurrence of the minimum wins, matching `np.argmin`). -/
def argminStep {α : Type} [LinearOrder α] (x : α) (xs : List α) : Option ℕ → ℕ
  | none => 0
  | some j => if xs.getD j x < x then j + 1 else 0

/-- Index of the first occurrence of the minimum of a list (`np.argmin`);
`none` on the empty list, where numpy raises. -/
def argminIdx {α : Type} [LinearOrder α] : List α → Option ℕ
  | [] => none
  | x :: xs => some (argminStep x xs (argminIdx xs))

theorem argminIdx_eq_none {α : Type} [LinearOrder α] {l : List α}
    (h : argminIdx l = none) : l = [] := by
  cases l with
  | nil => rfl
  | cons x xs => simp [argminIdx] at h

theorem argminIdx_spec {α : Type} [LinearOrder α] :
    ∀ (l : List α) (j : ℕ), argminIdx l = some j →
      ∃ a, l[j]? = some a ∧ ∀ b ∈ l, a ≤ b := by
  intro l
  induction l with
  | nil => intro j hj; simp [argminIdx] at hj
  | cons x xs ih =>
    intro j hj
    rw [show argminIdx (x :: xs) = some (argminStep x xs (argminIdx xs)) from rfl] at hj
    cases hxs : argminIdx xs with
    | none =>
      rw [hxs] at hj
      rw [show argminStep x xs none = 0 from rfl] at hj
      have hj0 : j = 0 := (Option.some_inj.mp hj).symm
      subst hj0
      have hnil := argminIdx_eq_none hxs
      subst hnil
      exact ⟨x, by simp, by simp⟩
    | some j0 =>
      rw [hxs] at hj
      rw [show argminStep x xs (some j0) = if xs.getD j0 x < x then j0 + 1 else 0 from rfl] at hj
      obtain ⟨a, ha, hmin⟩ := ih j0 hxs
      have hgetD : xs.getD j0 x = a := by
        simp [List.getD_eq_getElem?_getD, ha]
      by_cases hlt : xs.getD j0 x < x
      · rw [if_pos hlt] at hj
        have hsj : j = j0 + 1 := (Option.some_inj.mp hj).symm
        subst hsj
        refine ⟨a, by simpa using ha, ?_⟩
        intro b hb
        rcases List.mem_cons.mp hb with rfl | hb2
        · rw [hgetD] at hlt; exact le_of_lt hlt
        · exact hmin b hb2
      · rw [if_neg hlt] at hj
        have hsj : j = 0 := (Option.some_inj.mp hj).symm
        subst hsj
        refine ⟨x, by simp, ?_⟩
        intro b hb
        rcases List.mem_cons.mp hb with rfl | hb2
        · exact le_refl b
        · rw [hgetD] at hlt
          exact le_trans (not_lt.mp hlt) (hmin b hb2)

theorem argminIdx_of_ne_nil {α : Type} [LinearOrder α] (l : List α) (hl : l ≠ []) :
    ∃ j a, argminIdx l = some j ∧ l[j]? = some a ∧ ∀ b ∈ l, a ≤ b := by
  cases hj : argminIdx l with
  | none => exact absurd (argminIdx_eq_none hj) hl
  | some j =>
    obtain ⟨a, ha, hmin⟩ := argminIdx_spec l j hj
    exact ⟨j, a, rfl, ha, hmin⟩

/-- Python/numpy indexing `l[i]` with negative-index support: a negative `i`
addresses from the end, and any out-of-range access is an error (`none`). -/
def pyGet {α : Type} (l : List α) (i : Int) : Option α :=
  let j : Int := if i < 0 then (l.length : Int) + i else i
  if 0 ≤ j then l[j.toNat]? else none

/-- Python slicing `l[-n:]`: the last `n` elements, except that `l[-0:]` is
the whole list. -/
def pyTail {α : Type} (l : List α) (n : ℕ) : List α :=
  if n = 0 then l else l.drop (l.length - n)

theorem pyGet_neg {α : Type} (l : List α) (k : ℕ) (hk : 0 < k) (hk2 : k ≤ l.length) :
    pyGet l (-(k : Int)) = l[l.length - k]? := by
  have hneg : (-(k : Int)) < 0 := by omega
  have hj : (if (-(k:Int)) < 0 then (l.length : Int) + (-(k:Int)) else (-(k:Int))) =
      ((l.length - k : ℕ) : Int) := by
    rw [if_pos hneg]; omega
  rw [pyGet]
  simp only [hj]
  rw [if_pos (by omega)]
  simp

theorem pyTail_length {α : Type} (l : List α) (n : ℕ) (hn0 : n ≠ 0) (hn : n ≤ l.length) :
    (pyTail l n).length = n := by
  rw [pyTail, if_neg hn0]
  rw [List.length_drop]
  omega

theorem pyTail_getElem? {α : Type} (l : List α) (n : ℕ) (hn0 : n ≠ 0) (i : ℕ) :
    (pyTail l n)[i]? = l[l.length - n + i]? := by
  rw [pyTail, if_neg hn0]
  exact List.getElem?_drop l (l.length - n) i

theorem getElem?_isSome_of_lt {α : Type} {l : List α} {i : ℕ} (h : i < l.length) :
    (l[i]?).isSome := by simp [List.getElem?_eq_getElem h]

/-- The fields of a displaced subhalo consumed by `Halo.perihelion`: distance
series `ds`, the stored host radius series `host_rs`, the angle series
`phis` and `ths`, and the cosmic-age series `ts`. -/
structure DHalo (α : Type) where
  ds : List α
  host_rs : List α
  phis : List α
  ths : List α
  ts : List α

/-- `Halo.perihelion`: align the distance series and the host radius series
by their ends over the window of length `l = min(len(ds), len(host_rs))`,
take `i = argmin(ds[-l:])`, set `hi = i - l`, and return
`(ds[hi], ds[hi]/host_rs[hi], phis[hi], ths[hi], ts[hi])`;
`none` models a numpy indexing error or an argmin over an empty array. -/
def perihelion {α : Type} [LinearOrder α] [Div α] (h : DHalo α) : Option (α × α × α × α × α) :=
  let l := min h.ds.length h.host_rs.length
  match argminIdx (pyTail h.ds l) with
  | none => none
  | some i =>
    match pyGet h.ds ((i : Int) - l), pyGet h.host_rs ((i : Int) - l),
          pyGet h.phis ((i : Int) - l), pyGet h.ths ((i : Int) - l),
          pyGet h.ts ((i : Int) - l) with
    | some dp, some hr, some av, some bv, some tv => some (dp, dp / hr, av, bv, tv)
    | _, _, _, _, _ => none

/-- C2: for a displaced subhalo with non-empty distance and host-radius
series (and angle/age series of the same length as the distance series, as
`displace` produces), `perihelion` succeeds and returns a tuple whose first
component is less than or equal to the present-day (last) distance and to
every distance in the end-aligned window of length
`min(len(ds), len(host_rs))`, and whose five components are all taken at the
same end-aligned index (`k` positions from the end of each series). -/
theorem c2_perihelion_true_min {α : Type} [LinearOrder α] [Div α] (h : DHalo α)
    (hds : h.ds ≠ []) (hhr : h.host_rs ≠ [])
    (hphi : h.phis.length = h.ds.length) (hth : h.ths.length = h.ds.length)
    (hts : h.ts.length = h.ds.length) :
    ∃ (k : ℕ) (dp hr av bv tv : α),
      perihelion h = some (dp, dp / hr, av, bv, tv) ∧
      1 ≤ k ∧ k ≤ min h.ds.length h.host_rs.length ∧
      h.ds[h.ds.length - k]? = some dp ∧
      h.host_rs[h.host_rs.length - k]? = some hr ∧
      h.phis[h.phis.length - k]? = some av ∧
      h.ths[h.ths.length - k]? = some bv ∧
      h.ts[h.ts.length - k]? = some tv ∧
      (∀ b ∈ pyTail h.ds (min h.ds.length h.host_rs.length), dp ≤ b) ∧
      dp ≤ h.ds.getLast hds := by
  have hdsl : 0 < h.ds.length := List.length_pos.mpr hds
  have hhrl : 0 < h.host_rs.length := List.length_pos.mpr hhr
  set l := min h.ds.length h.host_rs.length with hldef
  have hlpos : 0 < l := lt_min hdsl hhrl
  have hlne : l ≠ 0 := Nat.pos_iff_ne_zero.mp hlpos
  have hlds : l ≤ h.ds.length := min_le_left _ _
  have hlhr : l ≤ h.host_rs.length := min_le_right _ _
  have hWlen : (pyTail h.ds l).length = l := pyTail_length h.ds l hlne hlds
  have hW : pyTail h.ds l ≠ [] := by
    intro hnil
    rw [hnil] at hWlen
    simp at hWlen
    omega
  obtain ⟨i, a, hargmin, ha, hmin⟩ := argminIdx_of_ne_nil _ hW
  have hil : i < l := by
    have hb := (List.getElem?_eq_some.mp ha).1
    rwa [hWlen] at hb
  have hkpos : 0 < l - i := by omega
  have hkneg : (i : Int) - l = -(((l - i : ℕ) : Int)) := by omega
  have hdp : h.ds[h.ds.length - (l - i)]? = some a := by
    have hW2 := pyTail_getElem? h.ds l hlne i
    rw [hW2] at ha
    rw [show h.ds.length - (l - i) = h.ds.length - l + i by omega]
    exact ha
  have e1 : pyGet h.ds ((i : Int) - l) = some a := by
    rw [hkneg, pyGet_neg h.ds (l - i) hkpos (by omega)]
    exact hdp
  have hhrsome : (h.host_rs[h.host_rs.length - (l - i)]?).isSome :=
    getElem?_isSome_of_lt (by omega)
  obtain ⟨hr, hhrv⟩ := Option.isSome_iff_exists.mp hhrsome
  have e2 : pyGet h.host_rs ((i : Int) - l) = some hr := by
    rw [hkneg, pyGet_neg h.host_rs (l - i) hkpos (by omega)]
    exact hhrv
  have hphisome : (h.phis[h.phis.length - (l - i)]?).isSome :=
    getElem?_isSome_of_lt (by omega)
  obtain ⟨av, hav⟩ := Option.isSome_iff_exists.mp hphisome
  have e3 : pyGet h.phis ((i : Int) - l) = some av := by
    rw [hkneg, pyGet_neg h.phis (l - i) hkpos (by omega)]
    exact hav
  have hthsome : (h.ths[h.ths.length - (l - i)]?).isSome :=
    getElem?_isSome_of_lt (by omega)
  obtain ⟨bv, hbv⟩ := Option.isSome_iff_exists.mp hthsome
  have e4 : pyGet h.ths ((i : Int) - l) = some bv := by
    rw [hkneg, pyGet_neg h.ths (l - i) hkpos (by omega)]
    exact hbv
  have htssome : (h.ts[h.ts.length - (l - i)]?).isSome :=
    getElem?_isSome_of_lt (by omega)
  obtain ⟨tv, htv⟩ := Option.isSome_iff_exists.mp htssome
  have e5 : pyGet h.ts ((i : Int) - l) = some tv := by
    rw [hkneg, pyGet_neg h.ts (l - i) hkpos (by omega)]
    exact htv
  have hperi : perihelion h = some (a, a / hr, av, bv, tv) := by
    rw [perihelion]
    rw [← hldef]
    simp only [hargmin, e1, e2, e3, e4, e5]
  have hlastmem : h.ds.getLast hds ∈ pyTail h.ds l := by
    have hidx : (pyTail h.ds l)[l - 1]? = h.ds[h.ds.length - 1]? := by
      rw [pyTail_getElem? h.ds l hlne (l - 1)]
      congr 1
      omega
    have hgl : h.ds[h.ds.length - 1]? = some (h.ds.getLast hds) := by
      rw [List.getLast_eq_getElem]
      exact List.getElem?_eq_getElem (by omega)
    rw [hgl] at hidx
    exact List.getElem?_mem hidx
  exact ⟨l - i, a, hr, av, bv, tv, hperi, by omega, by omega,
    hdp, hhrv, hav, hbv, htv, hmin, hmin _ hlastmem⟩

/-- Concrete displaced subhalo used to witness C2. -/
def dhaloEx : DHalo ℚ := ⟨[3, 1, 2], [1, 1, 1], [0, 0, 0], [0, 0, 0], [0, 0, 0]⟩

/-- Witness for C2 at concrete input `dhaloEx`: the hypotheses hold and the
conclusion follows by applying the theorem. -/
theorem c2_perihelion_true_min_witness :
    dhaloEx.ds ≠ [] ∧ dhaloEx.host_rs ≠ [] ∧
    dhaloEx.phis.length = dhaloEx.ds.length ∧
    dhaloEx.ths.length = dhaloEx.ds.length ∧
    dhaloEx.ts.length = dhaloEx.ds.length ∧
    (∃ (k : ℕ) (dp hr av bv tv : ℚ),
      perihelion dhaloEx = some (dp, dp / hr, av, bv, tv) ∧
      1 ≤ k ∧ k ≤ min dhaloEx.ds.length dhaloEx.host_rs.length ∧
      dhaloEx.ds[dhaloEx.ds.length - k]? = some dp ∧
      dhaloEx.host_rs[dhaloEx.host_rs.length - k]? = some hr ∧
      dhaloEx.phis[dhaloEx.phis.length - k]? = some av ∧
      dhaloEx.ths[dhaloEx.ths.length - k]? = some bv ∧
      dhaloEx.ts[dhaloEx.ts.length - k]? = some tv ∧
      (∀ b ∈ pyTail dhaloEx.ds (min dhaloEx.ds.length dhaloEx.host_rs.length), dp ≤ b) ∧
      dp ≤ dhaloEx.ds.getLast (by decide)) :=
  ⟨by decide, by decide, by decide, by decide, by decide,
    c2_perihelion_true_min dhaloEx (by decide) (by decide) (by decide) (by decide) (by decide)⟩

/-- Modelled from the spec: the repository's `deriv.vector_deriv` module is
imported by the script but its source is not available; per the spec
(Numerical Derivative, §4.1) it computes a finite-difference derivative of
`xs` with respect to the strictly monotonic samples `ts` on a non-uniform
grid, one-sided at the two boundary points and centered at interior points. -/
def vector_deriv {α : Type} [Field α] (ts xs : List α) : List α :=
  (List.range xs.length).map fun i =>
    if i = 0 then (xs.getD 1 0 - xs.getD 0 0) / (ts.getD 1 0 - ts.getD 0 0)
    else if i = xs.length - 1 then
      (xs.getD i 0 - xs.getD (i - 1) 0) / (ts.getD i 0 - ts.getD (i - 1) 0)
    else (xs.getD (i + 1) 0 - xs.getD (i - 1) 0) / (ts.getD (i + 1) 0 - ts.getD (i - 1) 0)

/-- One halo's assembled time history, as built by the `Halo` constructor:
scale factors, cosmic ages (produced by the external cosmology provider and
carried here as data), comoving positions, radii and masses. -/
structure Halo where
  scales : List ℚ
  ts : List ℚ
  xs : List ℚ
  ys : List ℚ
  zs : List ℚ
  rs : List ℚ
  ms : List ℚ

/-- `np.arctan2 y x`: the argument of the complex number `x + i y`. -/
noncomputable def atan2 (y x : ℝ) : ℝ := Complex.arg ⟨x, y⟩

/-- The state of a subhalo after `Halo.displace`: wrapped coordinates, the
derived distance/angle series, the stored host radius series, the velocity
components, the total speed series `vs` and the radial speed series `vrs`. -/
structure Displaced where
  xs : List ℚ
  ys : List ℚ
  zs : List ℚ
  ds : List ℝ
  phis : List ℝ
  ths : List ℝ
  host_rs : List ℚ
  vxs : List ℚ
  vys : List ℚ
  vzs : List ℚ
  vs : List ℝ
  vrs : List ℝ

/-- `Halo.displace`: wrap-displace the three coordinate series against the
host, then derive distances `ds = sqrt(xs²+ys²+zs²)`, angles
`phis = arccos(zs/ds)` and `ths = arctan2(ys, xs)`, store the host's radius
series, and compute velocities as finite-difference derivatives scaled by
the scale factor and the unit constant `31.54`.  The total speed follows the
source line `vs = np.sqrt(vxs**2 + vys**2 + zs**2)`, which squares the z
POSITION, not the z velocity. -/
noncomputable def displace (sub host : Halo) : Displaced :=
  let xs1 := displaceCoords sub.xs host.xs
  let ys1 := displaceCoords sub.ys host.ys
  let zs1 := displaceCoords sub.zs host.zs
  let ds := List.zipWith3 (fun x y z : ℚ =>
    Real.sqrt ((x:ℝ)^2 + (y:ℝ)^2 + (z:ℝ)^2)) xs1 ys1 zs1
  let vxs := List.zipWith (fun dv s => dv * s * 31.54) (vector_deriv sub.ts xs1) sub.scales
  let vys := List.zipWith (fun dv s => dv * s * 31.54) (vector_deriv sub.ts ys1) sub.scales
  let vzs := List.zipWith (fun dv s => dv * s * 31.54) (vector_deriv sub.ts zs1) sub.scales
  { xs := xs1, ys := ys1, zs := zs1,
    ds := ds,
    phis := List.zipWith (fun (z : ℚ) (d : ℝ) => Real.arccos ((z:ℝ) / d)) zs1 ds,
    ths := List.zipWith (fun y x : ℚ => atan2 (y:ℝ) (x:ℝ)) ys1 xs1,
    host_rs := host.rs,
    vxs := vxs, vys := vys, vzs := vzs,
    vs := List.zipWith3 (fun (vx vy : ℚ) (z : ℚ) =>
      Real.sqrt ((vx:ℝ)^2 + (vy:ℝ)^2 + (z:ℝ)^2)) vxs vys zs1,
    vrs := List.zipWith (fun (dv : ℝ) (s : ℚ) => |dv * (s:ℝ) * 31.54|)
      (vector_deriv (sub.ts.map fun q => (q:ℝ)) ds) sub.scales }

/-- Subhalo at rest relative to its host, used for the C5 evaluation:
constant displaced coordinates `(3, 4, 12)` over two snapshots. -/
def subEx : Halo := ⟨[1, 1], [1, 2], [3, 3], [4, 4], [12, 12], [1, 1], [1, 1]⟩

/-- Host at the origin over two snapshots, used for the C5 evaluation. -/
def hostEx : Halo := ⟨[1, 1], [1, 2], [0, 0], [0, 0], [0, 0], [1, 1], [1, 1]⟩

/-- C5: the claim states `vs[j] = sqrt(vxs[j]² + vys[j]² + vzs[j]²)`, i.e.
that the speed sum uses the z velocity squared.  The source line 128 uses
`self.zs**2` instead, so for a subhalo at rest relative to its host at
displaced position `(3, 4, 12)` all velocity components are `0` yet the
stored speed is `12` (the z position), not `sqrt(0) = 0`. -/
theorem c5_speed_squares_z_position :
    (displace subEx hostEx).vxs = [0, 0] ∧
    (displace subEx hostEx).vys = [0, 0] ∧
    (displace subEx hostEx).vzs = [0, 0] ∧
    (displace subEx hostEx).vs.getD 0 0 = 12 ∧
    (displace subEx hostEx).vs.getD 0 0 ≠
      Real.sqrt (((displace subEx hostEx).vxs.getD 0 0 : ℝ)^2 +
        ((displace subEx hostEx).vys.getD 0 0 : ℝ)^2 +
        ((displace subEx hostEx).vzs.getD 0 0 : ℝ)^2) := by
  have hx : displaceCoords subEx.xs hostEx.xs = [3, 3] := by
    norm_num [subEx, hostEx, displaceCoords, displaceStep, pyNegIdx, wrap, L,
      List.range_succ]
  have hy : displaceCoords subEx.ys hostEx.ys = [4, 4] := by
    norm_num [subEx, hostEx, displaceCoords, displaceStep, pyNegIdx, wrap, L,
      List.range_succ]
  have hz : displaceCoords subEx.zs hostEx.zs = [12, 12] := by
    norm_num [subEx, hostEx, displaceCoords, displaceStep, pyNegIdx, wrap, L,
      List.range_succ]
  have hvx : List.zipWith (fun dv s => dv * s * 31.54)
      (vector_deriv subEx.ts [3, 3]) subEx.scales = [0, 0] := by
    norm_num [subEx, vector_deriv, List.range_succ]
  have hvy : List.zipWith (fun dv s => dv * s * 31.54)
      (vector_deriv subEx.ts [4, 4]) subEx.scales = [0, 0] := by
    norm_num [subEx, vector_deriv, List.range_succ]
  have hvz : List.zipWith (fun dv s => dv * s * 31.54)
      (vector_deriv subEx.ts [12, 12]) subEx.scales = [0, 0] := by
    norm_num [subEx, vector_deriv, List.range_succ]
  have hpx : (displace subEx hostEx).vxs = [0, 0] := by
    simp only [displace, hx, hy, hz]
    exact hvx
  have hpy : (displace subEx hostEx).vys = [0, 0] := by
    simp only [displace, hx, hy, hz]
    exact hvy
  have hpz : (displace subEx hostEx).vzs = [0, 0] := by
    simp only [displace, hx, hy, hz]
    exact hvz
  have hvs : (displace subEx hostEx).vs.getD 0 0 = 12 := by
    simp only [displace, hx, hy, hz, hvx, hvy, hvz]
    simp only [List.zipWith3, List.getD_cons_zero]
    push_cast
    rw [show (0:ℝ)^2 + (0:ℝ)^2 + (12:ℝ)^2 = 12^2 by norm_num]
    exact Real.sqrt_sq (by norm_num)
  refine ⟨hpx, hpy, hpz, hvs, ?_⟩
  rw [hvs, hpx, hpy, hpz]
  norm_num

/-- The derived R200c stored on each host:
`(m200c/((cosmo.rho_c(0)*200)*1e9*4*np.pi/3))**0.333`, with the critical
density at z = 0 supplied by the external cosmology provider as a parameter.
Note the literal exponent is `0.333`. -/
noncomputable def r200c (m200c rho_c0 : ℝ) : ℝ :=
  (m200c / ((rho_c0 * 200) * 1e9 * 4 * Real.pi / 3)) ^ (0.333 : ℝ)

/-- Counterexample for C8: the claim says the stored R200c is the mass ratio
raised to the EXACT power 1/3, but the source uses the literal `0.333`.
At `rho_c0 = 1` and `m200c` chosen so the ratio is `8`, the code stores
`8^0.333` while the claim demands `8^(1/3)`, and `8^0.333 < 8^(1/3)`. -/
theorem c8_exponent_not_cube_root :
    r200c (8 * ((1 * 200) * 1e9 * 4 * Real.pi / 3)) 1 ≠
      (8 * ((1 * 200) * 1e9 * 4 * Real.pi / 3) /
        ((1 * 200) * 1e9 * 4 * Real.pi / 3)) ^ ((1 : ℝ) / 3) := by
  have h8 : (8 * (((1:ℝ) * 200) * 1e9 * 4 * Real.pi / 3)) /
      (((1:ℝ) * 200) * 1e9 * 4 * Real.pi / 3) = 8 := by
    have hD : (((1:ℝ) * 200) * 1e9 * 4 * Real.pi / 3) ≠ 0 := by positivity
    field_simp
  rw [r200c, h8]
  have hlt : (8:ℝ) ^ (0.333:ℝ) < (8:ℝ) ^ ((1:ℝ)/3) := by
    rw [Real.rpow_lt_rpow_left_iff (by norm_num)]
    norm_num
  exact ne_of_lt hlt

/-- C8 amended: the stored derived radius R200c equals
`(M200c / (200·ρ_crit(0)·1e9·4π/3))` raised to the power `0.333` (the
literal in the source), not to the exact power 1/3. -/
theorem c8_r200c_formula (m rho0 : ℝ) :
    r200c m rho0 = (m / (200 * rho0 * 1e9 * (4 * Real.pi / 3))) ^ (0.333 : ℝ) := by
  rw [r200c]
  congr 1
  ring

/-- The contiguous id-delimited view `glob[s:e]` that the `Halo` constructor
takes of a global merger-tree column, characterised elementwise. -/
def seg (glob : List ℚ) (s e : ℕ) : List ℚ :=
  (List.range (e - s)).map fun j => glob.getD (s + j) 0

/-- Writing a list `v` into a global column starting at offset `s`: the
semantic effect of mutating the numpy view `glob[s : s+len(v)]` in place. -/
def setSeg (glob : List ℚ) (s : ℕ) (v : List ℚ) : List ℚ :=
  (List.range glob.length).map fun j =>
    if s ≤ j ∧ j < s + v.length then v.getD (j - s) 0 else glob.getD j 0

/-- The global merger-tree columns out of which every `Halo` takes its
series views. -/
structure Globals where
  scalesG : List ℚ
  xsG : List ℚ
  ysG : List ℚ
  zsG : List ℚ
  rsG : List ℚ
  msG : List ℚ

/-- The effect of `sub.displace(host)` on the global columns when the
subhalo owns the view `[ss, se)` and the host the view `[hs1, he)`: the
three coordinate columns are rewritten inside the subhalo's view only (the
displacement loop assigns only to `self.xs`, `self.ys`, `self.zs`), and the
scale-factor, radius and mass columns are never written. -/
def displaceGlobals (g : Globals) (ss se hs1 he : ℕ) : Globals :=
  { g with
    xsG := setSeg g.xsG ss (displaceCoords (seg g.xsG ss se) (seg g.xsG hs1 he)),
    ysG := setSeg g.ysG ss (displaceCoords (seg g.ysG ss se) (seg g.ysG hs1 he)),
    zsG := setSeg g.zsG ss (displaceCoords (seg g.zsG ss se) (seg g.zsG hs1 he)) }

theorem displaceStep_length (host : List ℚ) (acc : List ℚ) (i : ℕ) :
    (displaceStep host acc i).length = acc.length := by
  simp [displaceStep]

theorem displaceCoords_length (sub host : List ℚ) :
    (displaceCoords sub host).length = sub.length := by
  rw [displaceCoords]
  generalize List.range (min sub.length host.length) = is
  induction is generalizing sub with
  | nil => rfl
  | cons i rest ih =>
    rw [List.foldl_cons]
    rw [ih (displaceStep host sub i)]
    exact displaceStep_length host sub i

theorem getD_map_range (n : ℕ) (f : ℕ → ℚ) (j : ℕ) :
    ((List.range n).map f).getD j 0 = if j < n then f j else 0 := by
  by_cases hj : j < n
  · rw [if_pos hj, List.getD_eq_getElem?_getD, List.getElem?_map, List.getElem?_range hj]
    rfl
  · rw [if_neg hj]
    apply List.getD_eq_default
    simpa using le_of_not_lt hj

theorem setSeg_getD_outside (glob : List ℚ) (s : ℕ) (v : List ℚ) (j : ℕ)
    (hj : j < s ∨ s + v.length ≤ j) :
    (setSeg glob s v).getD j 0 = glob.getD j 0 := by
  rw [setSeg, getD_map_range]
  by_cases hlen : j < glob.length
  · rw [if_pos hlen, if_neg (by omega)]
  · rw [if_neg hlen]
    rw [List.getD_eq_default _ _ (le_of_not_lt hlen)]

theorem seg_setSeg_disjoint (glob : List ℚ) (ss : ℕ) (v : List ℚ) (hs1 he : ℕ)
    (hdisj : ∀ j, hs1 ≤ j → j < he → (j < ss ∨ ss + v.length ≤ j)) :
    seg (setSeg glob ss v) hs1 he = seg glob hs1 he := by
  rw [seg, seg]
  apply List.map_congr_left
  intro a ha
  have ha2 : a < he - hs1 := List.mem_range.mp ha
  exact setSeg_getD_outside glob ss v (hs1 + a) (hdisj (hs1 + a) (by omega) (by omega))

/-- C9: when the subhalo's view `[ss, se)` and the host's view `[hs1, he)` of
the global merger-tree columns are disjoint (as they are for the sentinel-
delimited histories of two distinct halos), running the subhalo's
displacement leaves every one of the host's stored series unchanged: the
host's views of the three coordinate columns are untouched, the scale-factor,
radius and mass columns are never written at all, and the displaced subhalo's
stored host-radius field is exactly the host's radius series (the aliased
array, not a transformed copy). -/
theorem c9_displace_frame (g : Globals) (ss se hs1 he : ℕ)
    (hs_le : ss ≤ se) (hdisj : se ≤ hs1 ∨ he ≤ ss) (sub host : Halo) :
    seg (displaceGlobals g ss se hs1 he).xsG hs1 he = seg g.xsG hs1 he ∧
    seg (displaceGlobals g ss se hs1 he).ysG hs1 he = seg g.ysG hs1 he ∧
    seg (displaceGlobals g ss se hs1 he).zsG hs1 he = seg g.zsG hs1 he ∧
    (displaceGlobals g ss se hs1 he).scalesG = g.scalesG ∧
    (displaceGlobals g ss se hs1 he).rsG = g.rsG ∧
    (displaceGlobals g ss se hs1 he).msG = g.msG ∧
    (displace sub host).host_rs = host.rs := by
  have hlen : ∀ glob : List ℚ,
      (displaceCoords (seg glob ss se) (seg glob hs1 he)).length = se - ss := by
    intro glob
    rw [displaceCoords_length]
    simp [seg]
  have hout : ∀ glob : List ℚ,
      seg (setSeg glob ss (displaceCoords (seg glob ss se) (seg glob hs1 he))) hs1 he =
        seg glob hs1 he := by
    intro glob
    apply seg_setSeg_disjoint
    intro j hj1 hj2
    rw [hlen glob]
    omega
  exact ⟨hout g.xsG, hout g.ysG, hout g.zsG, rfl, rfl, rfl, rfl⟩

/-- Concrete global columns used to witness C9. -/
def gEx : Globals := ⟨[1, 2], [3, 4], [5, 6], [7, 8], [9, 10], [11, 12]⟩

/-- Witness for C9 at subhalo view `[0, 1)` and host view `[1, 2)` of `gEx`. -/
theorem c9_displace_frame_witness :
    (0 : ℕ) ≤ 1 ∧ ((1 : ℕ) ≤ 1 ∨ (2 : ℕ) ≤ 0) ∧
    (seg (displaceGlobals gEx 0 1 1 2).xsG 1 2 = seg gEx.xsG 1 2 ∧
     seg (displaceGlobals gEx 0 1 1 2).ysG 1 2 = seg gEx.ysG 1 2 ∧
     seg (displaceGlobals gEx 0 1 1 2).zsG 1 2 = seg gEx.zsG 1 2 ∧
     (displaceGlobals gEx 0 1 1 2).scalesG = gEx.scalesG ∧
     (displaceGlobals gEx 0 1 1 2).rsG = gEx.rsG ∧
     (displaceGlobals gEx 0 1 1 2).msG = gEx.msG ∧
     (displace subEx hostEx).host_rs = hostEx.rs) :=
  ⟨by decide, by decide,
    c9_displace_frame gEx 0 1 1 2 (by decide) (by decide) subEx hostEx⟩

/-- Fixed histogram range lower bound `r_lo = 0.1`. -/
def r_lo : ℚ := 0.1

/-- Fixed histogram range upper bound `r_hi = 2`. -/
def r_hi : ℚ := 2

/-- Number of histogram bins (`bins = 25`). -/
def nbins : ℕ := 25

/-- The per-host data consumed by the aggregation loop: for each subhalo the
pair `(xp, d)` of perihelion normalized distance and present-day distance
(in the subhalo order of `host.subs`), and the host's five radius scalars
(`r_sp`, `r_max`, `r200m`, the derived `r200c`, and the present-day radius
`host.rs[-1]`). -/
structure HostData where
  subs : List (ℚ × ℚ)
  r_sp : ℚ
  r_max : ℚ
  r200m : ℚ
  r200c : ℚ
  r_last : ℚ

/-- The present-day distances of the masked-in subhalos, in order:
`ds[mask]` where `mask = (~eps_eq(xps, ds/host.rs[-1])) & (xps < 1) & (ds > 0)`. -/
def maskedDs (h : HostData) : List ℚ :=
  (h.subs.filter fun p => subMask p.1 (p.2 / h.r_last) p.2).map fun p => p.2

/-- The masked subhalo count `n = np.sum(mask)` for one host. -/
def maskCount (h : HostData) : ℕ :=
  (h.subs.filter fun p => subMask p.1 (p.2 / h.r_last) p.2).length

/-- The bin edges `np.histogram(..., bins=25, range=(0.1, 2))` produces:
`linspace(0.1, 2, 26)`. -/
def edgesQ : List ℚ :=
  (List.range (nbins + 1)).map fun j : ℕ => r_lo + (j : ℚ) * (r_hi - r_lo) / (nbins : ℚ)

/-- Number of values falling in one histogram bin `[lo, hi)`; numpy closes
the right edge of the LAST bin, selected by `lastB`. -/
def binCount (vals : List ℚ) (lo hi : ℚ) (lastB : Bool) : ℕ :=
  (vals.filter fun v =>
    decide (lo ≤ v) && (if lastB then decide (v ≤ hi) else decide (v < hi))).length

/-- The bin counts of `np.histogram(vals, bins=25, range=(0.1, 2))`. -/
def histCounts (vals : List ℚ) : List ℕ :=
  (List.range nbins).map fun j =>
    binCount vals (edgesQ.getD j 0) (edgesQ.getD (j + 1) 0) (decide (j = nbins - 1))

/-- The source's `vol(r) = 4 * np.pi / 3 * r**3`. -/
noncomputable def vol (r : ℝ) : ℝ := 4 * Real.pi / 3 * r ^ 3

/-- The per-bin shell volumes `vol(edges[1:]) - vol(edges[:-1])`. -/
noncomputable def shellVols : List ℝ :=
  List.zipWith (fun a b : ℚ => vol (b : ℝ) - vol (a : ℝ)) edgesQ.dropLast edgesQ.tail

/-- The number-density profile `vals / (vol(edges[1:]) - vol(edges[:-1])) / n`
appended to a stack for one host and one radius definition. -/
noncomputable def profileOf (vals : List ℕ) (n : ℕ) : List ℝ :=
  List.zipWith (fun (v : ℕ) (sv : ℝ) => (v : ℝ) / sv / (n : ℝ)) vals shellVols

/-- One host's density profile for one radius definition: histogram of the
masked present-day distances divided by the radius `r` and multiplied by its
rescaling constant, normalized by shell volume and the masked count. -/
noncomputable def profileFor (h : HostData) (r scale : ℚ) : List ℝ :=
  profileOf (histCounts ((maskedDs h).map fun d => d / r * scale)) (maskCount h)

/-- The cross-host accumulation state: the four profile stacks and the
`edges` variable (initialized to `None` before the loop). -/
structure Stacks where
  b_r_sp : List (List ℝ)
  b_r_max : List (List ℝ)
  b_r200m : List (List ℝ)
  b_r200c : List (List ℝ)
  edges : Option (List ℚ)

/-- The pre-loop state: empty stacks, `edges = None`. -/
def initStacks : Stacks := ⟨[], [], [], [], none⟩

/-- The body of the main loop for one host, after the per-subhalo perihelion
collection: if the masked count exceeds `SUBHALO_LIM`, append the four
profiles and assign `edges` (the first `np.histogram` call returns the fixed
`linspace(0.1, 2, 26)` edges); otherwise change nothing. -/
noncomputable def processHost (s : Stacks) (h : HostData) : Stacks :=
  if SUBHALO_LIM < maskCount h then
    { b_r_sp := s.b_r_sp ++ [profileFor h h.r_sp r_sp_scale],
      b_r_max := s.b_r_max ++ [profileFor h h.r_max r_max_scale],
      b_r200m := s.b_r200m ++ [profileFor h h.r200m r200m_scale],
      b_r200c := s.b_r200c ++ [profileFor h h.r200c r200c_scale],
      edges := some edgesQ }
  else s

/-- The whole aggregation loop over the hosts. -/
noncomputable def runHosts (hosts : List HostData) : Stacks :=
  hosts.foldl processHost initStacks

/-- The bin-center computation `xs = (edges[:-1] + edges[1:]) / 2` on line
271, which runs after the loop: it fails (`none`) when `edges` is still
`None`. -/
def binCenters : Option (List ℚ) → Option (List ℚ)
  | none => none
  | some es => some (List.zipWith (fun a b => (a + b) / 2) es.dropLast es.tail)

theorem processHost_b_r_sp (s : Stacks) (h : HostData) :
    (processHost s h).b_r_sp = s.b_r_sp ++
      (if SUBHALO_LIM < maskCount h then [profileFor h h.r_sp r_sp_scale] else []) := by
  rw [processHost]
  split_ifs with hc
  · rfl
  · simp

theorem processHost_b_r_max (s : Stacks) (h : HostData) :
    (processHost s h).b_r_max = s.b_r_max ++
      (if SUBHALO_LIM < maskCount h then [profileFor h h.r_max r_max_scale] else []) := by
  rw [processHost]
  split_ifs with hc
  · rfl
  · simp

theorem processHost_b_r200m (s : Stacks) (h : HostData) :
    (processHost s h).b_r200m = s.b_r200m ++
      (if SUBHALO_LIM < maskCount h then [profileFor h h.r200m r200m_scale] else []) := by
  rw [processHost]
  split_ifs with hc
  · rfl
  · simp

theorem processHost_b_r200c (s : Stacks) (h : HostData) :
    (processHost s h).b_r200c = s.b_r200c ++
      (if SUBHALO_LIM < maskCount h then [profileFor h h.r200c r200c_scale] else []) := by
  rw [processHost]
  split_ifs with hc
  · rfl
  · simp

theorem runHosts_lengths (hosts : List HostData) (s : Stacks) :
    ((hosts.foldl processHost s).b_r_sp.length =
      s.b_r_sp.length + (hosts.filter fun h0 => decide (SUBHALO_LIM < maskCount h0)).length) ∧
    ((hosts.foldl processHost s).b_r_max.length =
      s.b_r_max.length + (hosts.filter fun h0 => decide (SUBHALO_LIM < maskCount h0)).length) ∧
    ((hosts.foldl processHost s).b_r200m.length =
      s.b_r200m.length + (hosts.filter fun h0 => decide (SUBHALO_LIM < maskCount h0)).length) ∧
    ((hosts.foldl processHost s).b_r200c.length =
      s.b_r200c.length + (hosts.filter fun h0 => decide (SUBHALO_LIM < maskCount h0)).length) := by
  induction hosts generalizing s with
  | nil => simp
  | cons h t ih =>
    rw [List.foldl_cons, List.filter_cons]
    obtain ⟨ih1, ih2, ih3, ih4⟩ := ih (processHost s h)
    rw [ih1, ih2, ih3, ih4]
    by_cases hc : SUBHALO_LIM < maskCount h
    · simp [hc, processHost_b_r_sp, processHost_b_r_max,
        processHost_b_r200m, processHost_b_r200c]
      omega
    · simp [hc, processHost_b_r_sp, processHost_b_r_max,
        processHost_b_r200m, processHost_b_r200c]

/-- C6: a host contributes its four density profiles to the cross-host
stacks if and only if its masked-in subhalo count strictly exceeds the
threshold `SUBHALO_LIM = 40`: the loop body appends exactly one profile to
each stack when `maskCount > 40` and nothing otherwise (so a host with
exactly 40 qualifying subhalos and any host below threshold contribute
nothing), and after the whole loop each stack holds exactly one profile per
qualifying host. -/
theorem c6_threshold_gate (hosts : List HostData) (s : Stacks) (h : HostData) :
    SUBHALO_LIM = 40 ∧
    ((processHost s h).b_r_sp = s.b_r_sp ++
      (if SUBHALO_LIM < maskCount h then [profileFor h h.r_sp r_sp_scale] else [])) ∧
    ((processHost s h).b_r_max = s.b_r_max ++
      (if SUBHALO_LIM < maskCount h then [profileFor h h.r_max r_max_scale] else [])) ∧
    ((processHost s h).b_r200m = s.b_r200m ++
      (if SUBHALO_LIM < maskCount h then [profileFor h h.r200m r200m_scale] else [])) ∧
    ((processHost s h).b_r200c = s.b_r200c ++
      (if SUBHALO_LIM < maskCount h then [profileFor h h.r200c r200c_scale] else [])) ∧
    (maskCount h = 40 → processHost s h = s) ∧
    ((runHosts hosts).b_r_sp.length =
      (hosts.filter fun h0 => decide (SUBHALO_LIM < maskCount h0)).length) ∧
    ((runHosts hosts).b_r_max.length =
      (hosts.filter fun h0 => decide (SUBHALO_LIM < maskCount h0)).length) ∧
    ((runHosts hosts).b_r200m.length =
      (hosts.filter fun h0 => decide (SUBHALO_LIM < maskCount h0)).length) ∧
    ((runHosts hosts).b_r200c.length =
      (hosts.filter fun h0 => decide (SUBHALO_LIM < maskCount h0)).length) := by
  obtain ⟨hl1, hl2, hl3, hl4⟩ := runHosts_lengths hosts initStacks
  refine ⟨rfl, processHost_b_r_sp s h, processHost_b_r_max s h,
    processHost_b_r200m s h, processHost_b_r200c s h, ?_, ?_, ?_, ?_, ?_⟩
  · intro h40
    rw [processHost, if_neg (by rw [h40]; decide)]
  · simpa [initStacks] using hl1
  · simpa [initStacks] using hl2
  · simpa [initStacks] using hl3
  · simpa [initStacks] using hl4

/-- An always-below-threshold host (no subhalos at all), for witnesses. -/
def hostDataEx : HostData := ⟨[], 1, 1, 1, 1, 1⟩

/-- Witness for C6 at the concrete inputs `hosts = [hostDataEx]`,
`s = initStacks`, `h = hostDataEx`; the inner hypothesis `maskCount h = 40`
of the conjunct used is vacuously dischargeable only when true, so the
witness instead exercises the whole conjunction at a host with
`maskCount = 0`, discharging every embedded hypothesis that applies. -/
theorem c6_threshold_gate_witness :
    SUBHALO_LIM = 40 ∧
    ((processHost initStacks hostDataEx).b_r_sp = initStacks.b_r_sp ++
      (if SUBHALO_LIM < maskCount hostDataEx
        then [profileFor hostDataEx hostDataEx.r_sp r_sp_scale] else [])) ∧
    ((processHost initStacks hostDataEx).b_r_max = initStacks.b_r_max ++
      (if SUBHALO_LIM < maskCount hostDataEx
        then [profileFor hostDataEx hostDataEx.r_max r_max_scale] else [])) ∧
    ((processHost initStacks hostDataEx).b_r200m = initStacks.b_r200m ++
      (if SUBHALO_LIM < maskCount hostDataEx
        then [profileFor hostDataEx hostDataEx.r200m r200m_scale] else [])) ∧
    ((processHost initStacks hostDataEx).b_r200c = initStacks.b_r200c ++
      (if SUBHALO_LIM < maskCount hostDataEx
        then [profileFor hostDataEx hostDataEx.r200c r200c_scale] else [])) ∧
    (maskCount hostDataEx = 40 → processHost initStacks hostDataEx = initStacks) ∧
    ((runHosts [hostDataEx]).b_r_sp.length =
      (([hostDataEx]).filter fun h0 => decide (SUBHALO_LIM < maskCount h0)).length) ∧
    ((runHosts [hostDataEx]).b_r_max.length =
      (([hostDataEx]).filter fun h0 => decide (SUBHALO_LIM < maskCount h0)).length) ∧
    ((runHosts [hostDataEx]).b_r200m.length =
      (([hostDataEx]).filter fun h0 => decide (SUBHALO_LIM < maskCount h0)).length) ∧
    ((runHosts [hostDataEx]).b_r200c.length =
      (([hostDataEx]).filter fun h0 => decide (SUBHALO_LIM < maskCount h0)).length) :=
  c6_threshold_gate [hostDataEx] initStacks hostDataEx

theorem processHost_edges (s : Stacks) (h : HostData) :
    (processHost s h).edges =
      if SUBHALO_LIM < maskCount h then some edgesQ else s.edges := by
  rw [processHost]
  split_ifs <;> rfl

theorem runHosts_edges (hosts : List HostData) (s : Stacks) :
    (hosts.foldl processHost s).edges =
      if hosts.all (fun h0 => decide (maskCount h0 ≤ SUBHALO_LIM)) then s.edges
      else some edgesQ := by
  induction hosts generalizing s with
  | nil => simp
  | cons h t ih =>
    rw [List.foldl_cons, ih, processHost_edges]
    by_cases hc : SUBHALO_LIM < maskCount h
    · rw [if_pos hc]
      have hdec : (decide (maskCount h ≤ SUBHALO_LIM)) = false := by
        simp
        omega
      rw [List.all_cons, hdec]
      simp
    · rw [if_neg hc]
      have hdec : (decide (maskCount h ≤ SUBHALO_LIM)) = true := by
        simp
        omega
      rw [List.all_cons, hdec]
      simp

/-- C10: after the aggregation loop, the `edges` variable is still `None`
exactly when no host had a masked-in count strictly above `SUBHALO_LIM = 40`
(otherwise it holds the fixed bin edges), and the bin-center computation on
the `None` value fails instead of producing output arrays. -/
theorem c10_no_qualifier_no_output (hosts : List HostData) :
    ((runHosts hosts).edges =
      if hosts.all (fun h0 => decide (maskCount h0 ≤ SUBHALO_LIM)) then none
      else some edgesQ) ∧
    binCenters none = none := by
  refine ⟨?_, rfl⟩
  rw [runHosts, runHosts_edges]
  rfl

theorem edgesQ_length : edgesQ.length = nbins + 1 := by
  rw [edgesQ, List.length_map, List.length_range]

theorem histCounts_length (vals : List ℚ) : (histCounts vals).length = nbins := by
  simp [histCounts]

theorem shellVols_length : shellVols.length = nbins := by
  rw [shellVols, List.length_zipWith, List.length_dropLast, List.length_tail, edgesQ_length]
  simp

theorem getD_zipWith {α β γ : Type} (f : α → β → γ) (l1 : List α) (l2 : List β)
    (j : ℕ) (hj1 : j < l1.length) (hj2 : j < l2.length) (d1 : α) (d2 : β) (d3 : γ) :
    (List.zipWith f l1 l2).getD j d3 = f (l1.getD j d1) (l2.getD j d2) := by
  have hz : j < (List.zipWith f l1 l2).length := by
    rw [List.length_zipWith]
    omega
  rw [List.getD_eq_getElem?_getD, List.getElem?_eq_getElem hz]
  rw [List.getD_eq_getElem?_getD, List.getElem?_eq_getElem hj1]
  rw [List.getD_eq_getElem?_getD, List.getElem?_eq_getElem hj2]
  simp [List.getElem_zipWith]

theorem getD_tail {α : Type} (l : List α) (j : ℕ) (d : α) :
    l.tail.getD j d = l.getD (j + 1) d := by
  cases l with
  | nil => rfl
  | cons x xs => rfl

theorem getD_dropLast {α : Type} (l : List α) (j : ℕ) (hj : j < l.length - 1) (d : α) :
    l.dropLast.getD j d = l.getD j d := by
  have h1 : j < l.dropLast.length := by
    rw [List.length_dropLast]
    omega
  rw [List.getD_eq_getElem?_getD, List.getElem?_eq_getElem h1]
  rw [List.getD_eq_getElem?_getD, List.getElem?_eq_getElem (show j < l.length by omega)]
  simp [List.getElem_dropLast]

theorem shellVols_getD (j : ℕ) (hj : j < nbins) :
    shellVols.getD j 0 =
      vol ((edgesQ.getD (j + 1) 0 : ℚ) : ℝ) - vol ((edgesQ.getD j 0 : ℚ) : ℝ) := by
  rw [shellVols]
  rw [getD_zipWith _ _ _ j
    (by rw [List.length_dropLast, edgesQ_length]; omega)
    (by rw [List.length_tail, edgesQ_length]; omega) 0 0 0]
  rw [getD_tail, getD_dropLast _ _ (by rw [edgesQ_length]; omega)]

theorem profileOf_getD (vals : List ℕ) (n : ℕ) (hlen : vals.length = nbins) (j : ℕ) :
    (profileOf vals n).getD j 0 =
      (vals.getD j 0 : ℝ) /
        (4 * Real.pi / 3 * (((edgesQ.getD (j + 1) 0 : ℚ) : ℝ) ^ 3 -
          ((edgesQ.getD j 0 : ℚ) : ℝ) ^ 3)) / (n : ℝ) := by
  by_cases hj : j < nbins
  · rw [profileOf]
    rw [getD_zipWith _ _ _ j (by omega) (by rw [shellVols_length]; omega) 0 0 0]
    rw [shellVols_getD j hj]
    rw [show vol ((edgesQ.getD (j + 1) 0 : ℚ) : ℝ) - vol ((edgesQ.getD j 0 : ℚ) : ℝ) =
      4 * Real.pi / 3 * (((edgesQ.getD (j + 1) 0 : ℚ) : ℝ) ^ 3 -
        ((edgesQ.getD j 0 : ℚ) : ℝ) ^ 3) from by rw [vol, vol]; ring]
  · have hlenp : (profileOf vals n).length ≤ j := by
      rw [profileOf, List.length_zipWith, shellVols_length]
      omega
    rw [List.getD_eq_default _ _ hlenp]
    rw [List.getD_eq_default _ _ (show vals.length ≤ j by omega)]
    simp

/-- C7: for every host and each radius definition (radius `r` with rescale
constant `scale`), the profile appended to the stack has, at every bin `j`,
the value `count / (4π/3·(r_outer³ − r_inner³)) / n`, where the bin edges are
the fixed `linspace(0.1, 2, 26)` (range `(0.1, 2.0)` split into 25 equal
bins), `count` is that bin's histogram count of the masked normalized
distances, and `n` is the host's masked subhalo count. -/
theorem c7_profile_normalization (h : HostData) (r scale : ℚ) (j : ℕ) :
    (profileFor h r scale).getD j 0 =
      ((histCounts ((maskedDs h).map fun d => d / r * scale)).getD j 0 : ℝ) /
        (4 * Real.pi / 3 * (((edgesQ.getD (j + 1) 0 : ℚ) : ℝ) ^ 3 -
          ((edgesQ.getD j 0 : ℚ) : ℝ) ^ 3)) / (maskCount h : ℝ) := by
  rw [profileFor]
  exact profileOf_getD _ _ (histCounts_length _) j
